import Mathlib

/-!
# Verification of the CFR engine in `cfr_sequence.py` (with the coin-toss game)

This file gives a shallow embedding, in Lean 4, of the Counterfactual Regret
Minimization engine of the repository: the per-player `StrategyState`
bookkeeping (`__init__`, `get_pi`, `update_pi`, `update_regret`), the recursive
tree walk `CFRNode.walktree`, and the `CoinToss` game state it is driven with.

Python dictionaries are embedded as association lists (`List (String × α)`),
which preserves key order and makes every operation computable and decidable.
Python `dict[k]` lookups are totalized with an explicit default (`dget d k dflt`);
in the source a missing key raises `KeyError`, and every theorem below only
speaks about registered keys, where the two semantics agree.  Python's in-place
dict assignment `d[k] = v` on an existing key is `dset`; all assignments
performed by the source hit existing keys.  Real-number arithmetic is embedded
as exact rational arithmetic (`ℚ`).
-/

/-- Python `d[k]` with an explicit default for the (never exercised) missing-key
case. -/
def dget {α : Type} : List (String × α) → String → α → α
  | [], _, dflt => dflt
  | p :: d, k, dflt => if p.1 = k then p.2 else dget d k dflt

/-- Python `d[k] = v` on an existing key `k` (a no-op when `k` is absent; the
source only ever assigns to keys created by `StrategyState.__init__`). -/
def dset {α : Type} : List (String × α) → String → α → List (String × α)
  | [], _, _ => []
  | p :: d, k, v => (if p.1 = k then (p.1, v) else p) :: dset d k v

/-- Embedding of `StrategyState` (`cfr_sequence.py`, lines 7–50).  The fields
`pi`, `regret`, `info_turn` (the per-information-set visit counter) and
`pi_sum` are the four dictionaries the Python constructor builds. -/
structure StrategyState where
  info_list : List String
  action_list : List String
  pi : List (String × List (String × ℚ))
  regret : List (String × List (String × ℚ))
  info_turn : List (String × ℕ)
  pi_sum : List (String × List (String × ℚ))
deriving DecidableEq, Repr

/-- `StrategyState.__init__(info_list, action_list)`: `pi` is uniform
(`1/len(action_list)` per action), `regret` and `pi_sum` are zero, `info_turn`
is zero.  As in Python, the division `1/len(action_list)` only occurs once per
`(info, action)` pair, so an empty list never evaluates it. -/
def StrategyState.init (info_list action_list : List String) : StrategyState :=
  { info_list := info_list
    action_list := action_list
    pi := info_list.map (fun i =>
      (i, action_list.map (fun a => (a, 1 / (action_list.length : ℚ)))))
    regret := info_list.map (fun i =>
      (i, action_list.map (fun a => (a, (0 : ℚ)))))
    info_turn := info_list.map (fun i => (i, (0 : ℕ)))
    pi_sum := info_list.map (fun i =>
      (i, action_list.map (fun a => (a, (0 : ℚ))))) }

/-- Python true division: raises `ZeroDivisionError` on a zero denominator. -/
def pydiv (a b : ℚ) : Except String ℚ :=
  if b = 0 then .error "ZeroDivisionError" else .ok (a / b)

/-- `StrategyState.__init__` with Python's division-by-zero exception made
explicit: the body `1/len(action_list)` of the dict comprehension is evaluated
once per `(info, action)` pair, exactly as in Python, so whether the
constructor can raise depends on how often that body runs. -/
def StrategyState.initE (info_list action_list : List String) :
    Except String StrategyState := do
  let pi ← info_list.mapM (fun i => do
    let inner ← action_list.mapM (fun a => do
      let v ← pydiv 1 (action_list.length : ℚ)
      return (a, v))
    return (i, inner))
  return { info_list := info_list
           action_list := action_list
           pi := pi
           regret := info_list.map (fun i =>
             (i, action_list.map (fun a => (a, (0 : ℚ)))))
           info_turn := info_list.map (fun i => (i, (0 : ℕ)))
           pi_sum := info_list.map (fun i =>
             (i, action_list.map (fun a => (a, (0 : ℚ))))) }

/-- `StrategyState.get_pi(info, action)` (line 16–17): the nested dict lookup
`self.pi[info][action]`. -/
def StrategyState.get_pi (s : StrategyState) (info action : String) : ℚ :=
  dget (dget s.pi info []) action 0

/-- `StrategyState.update_pi(info)` (lines 19–34): regret matching.  Sum the
positive parts of `self.regret[info]`; if the sum is `≤ 0` replace
`self.pi[info]` by the uniform distribution, otherwise by the normalized
positive regrets; then add each new `pi[info][action]` into
`pi_sum[info][action]`. -/
def StrategyState.update_pi (s : StrategyState) (info : String) : StrategyState :=
  let move_to_regret := dget s.regret info []
  let all_regret := (move_to_regret.map (fun p => if p.2 > 0 then p.2 else 0)).sum
  let posr : String → ℚ := fun a =>
    let r := dget move_to_regret a 0
    if r > 0 then r else 0
  let newPi : List (String × ℚ) :=
    if all_regret ≤ 0 then
      s.action_list.map (fun a => (a, 1 / (s.action_list.length : ℚ)))
    else
      s.action_list.map (fun a => (a, posr a / all_regret))
  { s with
    pi := dset s.pi info newPi
    pi_sum := dset s.pi_sum info
      (s.action_list.foldl
        (fun d a => dset d a (dget d a 0 + dget newPi a 0))
        (dget s.pi_sum info [])) }

/-- The replacement dictionary `update_pi` stores into `self.pi[info]`
(lines 29–32), as a named intermediate for reasoning: uniform when the summed
positive regret is `≤ 0`, normalized positive regrets otherwise. -/
def newPiOf (s : StrategyState) (info : String) : List (String × ℚ) :=
  let move_to_regret := dget s.regret info []
  let all_regret := (move_to_regret.map (fun p => if p.2 > 0 then p.2 else 0)).sum
  let posr : String → ℚ := fun a =>
    let r := dget move_to_regret a 0
    if r > 0 then r else 0
  if all_regret ≤ 0 then
    s.action_list.map (fun a => (a, 1 / (s.action_list.length : ℚ)))
  else
    s.action_list.map (fun a => (a, posr a / all_regret))

/-- `StrategyState.update_regret(cfr_node, opponent_p)` (lines 36–47).  The
Python method extracts from the node: the acting player, `info =
cfr_node.state.get_information(player)`, the baseline `u_old =
cfr_node.utility[player]`, and the pairs `(move, sub_node.utility[player])`
ranging over `cfr_node.sub_nodes`; the embedding receives those values
directly (`subs` is that list of pairs).  `t = self.info_turn[info]` is read
once before the loop; each expanded move's regret becomes
`(regret*t + opponent_p*(u_next - u_old))/(t+1)`; finally
`info_turn[info] = t + 1`. -/
def StrategyState.update_regret (s : StrategyState) (info : String)
    (u_old opponent_p : ℚ) (subs : List (String × ℚ)) : StrategyState :=
  let t := dget s.info_turn info 0
  let inner := subs.foldl
    (fun inn mu =>
      let regret := dget inn mu.1 0
      dset inn mu.1 ((regret * (t : ℚ) + opponent_p * (mu.2 - u_old)) / ((t : ℚ) + 1)))
    (dget s.regret info [])
  { s with
    regret := dset s.regret info inner
    info_turn := dset s.info_turn info (t + 1) }

/-- The two competing players, numbered 1 and 2 in the source. -/
inductive Player where
  | one
  | two
deriving DecidableEq, Repr

/-- The acting party returned by `get_player_next_moved` at a non-terminal
state: the chance/environment actor (`0` in the source) or a competing
player (`1` / `2`).  A terminal state returns Python `None`, embedded as
`Option.none` around this type. -/
inductive Actor where
  | chance
  | player (p : Player)
deriving DecidableEq, Repr

/-- The game-state interface consumed by `CFRNode.walktree` (duck-typed in
Python; see `coin_toss.py` for the concrete instance).  Python's
`state.clone()` followed by in-place `do_move(move)` is embedded as the pure
transition `do_move`.  `get_result` carries Python's exception as an
`Except`. -/
structure Game (σ : Type) where
  get_player_next_moved : σ → Option Actor
  get_information : σ → Player → String
  get_moves : σ → List String
  do_move : σ → String → σ
  get_result : σ → ℕ → Except String ℚ

/-- A finished CFR tree node: `utility = {1: u1, 2: u2}` and
`sub_nodes` as an association list (`CFRNode.__init__`, lines 57–67, with the
fields `walktree` fills in). -/
inductive CFRTree where
  | mk (u1 u2 : ℚ) (subs : List (String × CFRTree))

/-- The node's utility for player 1. -/
def CFRTree.u1 : CFRTree → ℚ
  | .mk a _ _ => a

/-- The node's utility for player 2. -/
def CFRTree.u2 : CFRTree → ℚ
  | .mk _ b _ => b

/-- The node's expanded children, in expansion order. -/
def CFRTree.subs : CFRTree → List (String × CFRTree)
  | .mk _ _ s => s

/-- The node's utility from a given competing player's viewpoint. -/
def CFRTree.uFor : CFRTree → Player → ℚ
  | t, .one => t.u1
  | t, .two => t.u2

/-- The module-level `pi = {1: StrategyState(...), 2: StrategyState(...)}`
(line 53): one strategy store per competing player, mutated in place during
the walk and threaded explicitly here. -/
structure Strategies where
  s1 : StrategyState
  s2 : StrategyState
deriving DecidableEq, Repr

/-- `pi[player]` for a competing player. -/
def Strategies.store : Strategies → Player → StrategyState
  | π, .one => π.s1
  | π, .two => π.s2

/-- Replace `pi[player]` (the in-place mutation of that store). -/
def Strategies.setStore : Strategies → Player → StrategyState → Strategies
  | π, .one, s => { π with s1 := s }
  | π, .two, s => { π with s2 := s }

/-- The reach probabilities passed to a child of a player node (lines 94–97):
player 1 recurses with `(p1*pi_action, p2)`, player 2 with
`(p1, p2*pi_action)` — the acting player's own reach is scaled, the
opponent's passed unchanged. -/
def childReaches (p : Player) (r1 r2 pi_action : ℚ) : ℚ × ℚ :=
  match p with
  | .one => (r1 * pi_action, r2)
  | .two => (r1, r2 * pi_action)

/-- The opponent's reach probability handed to `update_regret` (lines
102–105): `p2` when player 1 acts, `p1` when player 2 acts. -/
def oppReach (p : Player) (r1 r2 : ℚ) : ℚ :=
  match p with
  | .one => r2
  | .two => r1

/-- The `for move in self.state.get_moves()` loop of the player case of
`walktree` (lines 89–100), with the recursive call abstracted as `rec`
(instantiated with `walktree` at one unit less fuel).  For each move in
order: clone-and-move, read `pi_action = pi[player].get_pi(info, move)` from
the *current* stores, recurse with the reaches of `childReaches`, record the
child under `sub_nodes`, and accumulate `pi_action * child.utility[k]` for
both players `k`. -/
def walkMoves {σ : Type}
    (rec : σ → ℚ → ℚ → List String → Strategies → Option (CFRTree × Strategies))
    (g : Game σ) (st : σ) (p : Player) (info : String) (r1 r2 : ℚ)
    (seq : List String) :
    List String → ℚ × ℚ → List (String × CFRTree) → Strategies →
    Option ((ℚ × ℚ) × List (String × CFRTree) × Strategies)
  | [], u, subs, π => some (u, subs, π)
  | move :: rest, u, subs, π =>
    let next_state := g.do_move st move
    let pi_action := (π.store p).get_pi info move
    let rr := childReaches p r1 r2 pi_action
    match rec next_state rr.1 rr.2 seq π with
    | none => none
    | some (t, π') =>
      walkMoves rec g st p info r1 r2 seq rest
        (u.1 + pi_action * t.u1, u.2 + pi_action * t.u2)
        (subs ++ [(move, t)]) π'

/-- `CFRNode.walktree(p1, p2, sequence)` (lines 69–105), with the strategy
stores threaded explicitly and fuel bounding the recursion depth (`none`
means the fuel ran out, the chance case hit an empty sequence — Python's
`sequence[0]` `IndexError` — or `get_result` raised).  Terminal: utilities
from `get_result`.  Chance: consume `sequence[0]`, recurse on the single
child with the tail and unchanged reaches, copy its utility.  Player `p`:
`update_pi(info)` on `p`'s store, expand every legal move via `walkMoves`,
then `update_regret` on `p`'s store with the opponent's incoming reach. -/
def walktree {σ : Type} (g : Game σ) :
    ℕ → σ → ℚ → ℚ → List String → Strategies → Option (CFRTree × Strategies)
  | 0, _, _, _, _, _ => none
  | Nat.succ fuel, st, r1, r2, seq, π =>
    match g.get_player_next_moved st with
    | none =>
      match g.get_result st 1, g.get_result st 2 with
      | .ok v1, .ok v2 => some (CFRTree.mk v1 v2 [], π)
      | _, _ => none
    | some .chance =>
      match seq with
      | [] => none
      | move :: rest =>
        let next_state := g.do_move st move
        match walktree g fuel next_state r1 r2 rest π with
        | none => none
        | some (t, π') => some (CFRTree.mk t.u1 t.u2 [(move, t)], π')
    | some (.player p) =>
      let info := g.get_information st p
      let π0 := π.setStore p ((π.store p).update_pi info)
      match walkMoves (fun st' a b sq πc => walktree g fuel st' a b sq πc)
          g st p info r1 r2 seq (g.get_moves st) (0, 0) [] π0 with
      | none => none
      | some (u, subs, π1) =>
        let tr := CFRTree.mk u.1 u.2 subs
        let π2 := π1.setStore p
          ((π1.store p).update_regret info (tr.uFor p) (oppReach p r1 r2)
            (subs.map (fun mt => (mt.1, mt.2.uFor p))))
        some (tr, π2)

/-- The `CoinToss` game state (`coin_toss.py`, lines 12–18): all four fields
start as Python `None`. -/
structure CoinToss where
  player_just_moved : Option ℕ
  coin_toss : Option String
  player1_choice : Option String
  player2_choice : Option String
deriving DecidableEq, Repr

/-- `CoinToss()` — the freshly constructed state. -/
def CoinToss.start : CoinToss :=
  { player_just_moved := none, coin_toss := none
    player1_choice := none, player2_choice := none }

/-- `CoinToss.get_player_next_moved` (lines 20–32): terminal when player 1
sold or player 2 has moved; otherwise chance, player 1, player 2 in turn
(chance is `0` in the source).  Python falls off the end (returning `None`)
for any other `player_just_moved`. -/
def CoinToss.get_player_next_moved (c : CoinToss) : Option Actor :=
  if c.player1_choice = some "sell" then none
  else if c.player_just_moved = some 2 then none
  else if c.player_just_moved = none then some .chance
  else if c.player_just_moved = some 0 then some (.player .one)
  else if c.player_just_moved = some 1 then some (.player .two)
  else none

/-- `CoinToss.get_information` (lines 34–38): player 1 observes the coin
toss, player 2 knows nothing.  When player 1 is to move the coin has been
tossed, so the `Option` is defaulted only on unreachable states. -/
def CoinToss.get_information (c : CoinToss) (p : Player) : String :=
  match p with
  | .one => c.coin_toss.getD ""
  | .two => "nothing"

/-- `CoinToss.clone` followed by `CoinToss.do_move` (lines 40–64), as one
pure transition: chance sets the coin, player 1 sets their choice, player 2
sets theirs; any later move is a no-op (no Python branch matches). -/
def CoinToss.do_move (c : CoinToss) (move : String) : CoinToss :=
  if c.player_just_moved = none then
    { c with player_just_moved := some 0, coin_toss := some move }
  else if c.player_just_moved = some 0 then
    { c with player_just_moved := some 1, player1_choice := some move }
  else if c.player_just_moved = some 1 then
    { c with player_just_moved := some 2, player2_choice := some move }
  else c

/-- `CoinToss.get_moves` (lines 66–80).  Python returns `None` (not `[]`) at
the terminal cases; the walker never calls `get_moves` there, and the
embedding uses `[]` for them. -/
def CoinToss.get_moves (c : CoinToss) : List String :=
  if c.player_just_moved = none then ["head", "tail"]
  else if c.player_just_moved = some 0 then ["sell", "play"]
  else if c.player_just_moved = some 1 then
    (if c.player1_choice = some "play" then ["head", "tail"] else [])
  else []

/-- `CoinToss.get_result(playerjm)` (lines 82–124).  The recognized terminal
patterns return the zero-sum payoffs of the source (the inner `else: return
0` branches for a `playerjm` other than 1 or 2 are kept); the final `else`
raises `Exception("wrong state...")`.  When player 1 sold but the coin was
never tossed, Python falls out of the matched branch and returns `None`,
which would crash the caller's arithmetic — embedded as an error as well. -/
def CoinToss.get_result (c : CoinToss) (playerjm : ℕ) : Except String ℚ :=
  if c.player_just_moved = some 1 ∧ c.player1_choice = some "sell" then
    if c.coin_toss = some "head" then
      .ok (if playerjm = 1 then 1/2 else if playerjm = 2 then -1/2 else 0)
    else if c.coin_toss = some "tail" then
      .ok (if playerjm = 1 then -1/2 else if playerjm = 2 then 1/2 else 0)
    else .error "None result"
  else if c.player_just_moved = some 2 ∧ c.player1_choice = some "play" then
    if c.coin_toss = c.player2_choice then
      .ok (if playerjm = 1 then -1 else if playerjm = 2 then 1 else 0)
    else
      .ok (if playerjm = 1 then 1 else if playerjm = 2 then -1 else 0)
  else .error "wrong state..."

/-- The `CoinToss` instance of the game interface used by the walker. -/
def CoinTossGame : Game CoinToss :=
  { get_player_next_moved := CoinToss.get_player_next_moved
    get_information := CoinToss.get_information
    get_moves := CoinToss.get_moves
    do_move := CoinToss.do_move
    get_result := CoinToss.get_result }

/-- The strategy stores of line 53: `{1: StrategyState(["head", "tail"],
["sell", "play"]), 2: StrategyState(["nothing"], ["head", "tail"])}`. -/
def initialStrategies : Strategies :=
  { s1 := StrategyState.init ["head", "tail"] ["sell", "play"]
    s2 := StrategyState.init ["nothing"] ["head", "tail"] }

/-- The coin-toss state at player 2's decision node after the chance outcome
"head" and player 1 choosing "play" — a concrete input for the player-node
theorems. -/
def ctP2State : CoinToss :=
  { player_just_moved := some 1, coin_toss := some "head"
    player1_choice := some "play", player2_choice := none }

/-- A minimal game used as a concrete input for the generic walker theorems:
state `0` is a chance node whose only transition leads to the terminal state
`1` with payoffs `(1, -1)`. -/
def tinyGame : Game ℕ :=
  { get_player_next_moved := fun s => if s = 0 then some .chance else none
    get_information := fun _ _ => "i"
    get_moves := fun _ => []
    do_move := fun _ _ => 1
    get_result := fun _ p => if p = 1 then .ok 1 else .ok (-1) }

/-- Strategy stores with no registered information set, used as a concrete
input where the stores are irrelevant. -/
def emptyStrategies : Strategies :=
  { s1 := StrategyState.init [] [], s2 := StrategyState.init [] [] }

/-- One call against a `StrategyState`: either `update_pi(info)` or
`update_regret` with the values the walker would extract from a node. -/
inductive SSOp where
  | upd_pi (info : String)
  | upd_regret (info : String) (u_old opp : ℚ) (subs : List (String × ℚ))

/-- Apply one call. -/
def applyOp (s : StrategyState) : SSOp → StrategyState
  | .upd_pi info => s.update_pi info
  | .upd_regret info u_old opp subs => s.update_regret info u_old opp subs

/-- Apply a sequence of calls in order. -/
def applyOps (s : StrategyState) (ops : List SSOp) : StrategyState :=
  ops.foldl applyOp s

/-- The per-move expansion record of the player case of `walktree` (lines
89–100), as a relation: the walker processed the listed moves in order,
and for each one read `q = pi[player].get_pi(info, move)` from the strategy
stores as they stood at that point, recursed into `do_move st move` with the
reaches of `childReaches` (the acting player's reach multiplied by `q`, the
opponent's unchanged) and the *same* chance sequence, obtained child tree `t`,
and continued with the stores the child's walk returned. -/
inductive Expanded {σ : Type}
    (rec : σ → ℚ → ℚ → List String → Strategies → Option (CFRTree × Strategies))
    (g : Game σ) (st : σ) (p : Player) (info : String) (r1 r2 : ℚ)
    (seq : List String) :
    List String → Strategies → List (String × ℚ × CFRTree) → Strategies → Prop
  | nil (π : Strategies) : Expanded rec g st p info r1 r2 seq [] π [] π
  | cons (move : String) (rest : List String) (π πmid πfin : Strategies)
      (q : ℚ) (t : CFRTree) (recs : List (String × ℚ × CFRTree))
      (hq : q = (π.store p).get_pi info move)
      (hrec : rec (g.do_move st move) (childReaches p r1 r2 q).1
        (childReaches p r1 r2 q).2 seq π = some (t, πmid))
      (htail : Expanded rec g st p info r1 r2 seq rest πmid recs πfin) :
      Expanded rec g st p info r1 r2 seq (move :: rest) π ((move, q, t) :: recs) πfin

mutual

/-- Every node of a finished tree has utilities summing to zero. -/
def zsum : CFRTree → Bool
  | .mk u1 u2 subs => decide (u1 + u2 = 0) && zsumList subs

/-- `zsum` over a child list. -/
def zsumList : List (String × CFRTree) → Bool
  | [] => true
  | mt :: rest => zsum mt.2 && zsumList rest

end

/-! ## Association-list lemmas -/

theorem dset_map_fst {α : Type} (d : List (String × α)) (k : String) (v : α) :
    (dset d k v).map Prod.fst = d.map Prod.fst := by
  induction d with
  | nil => rfl
  | cons p d ih =>
    by_cases h : p.1 = k <;> simp [dset, h, ih]

theorem dget_dset_self {α : Type} {d : List (String × α)} {k : String}
    (v : α) (dflt : α) (h : k ∈ d.map Prod.fst) :
    dget (dset d k v) k dflt = v := by
  induction d with
  | nil => simp at h
  | cons p d ih =>
    by_cases hp : p.1 = k
    · simp [dset, dget, hp]
    · simp only [List.map_cons, List.mem_cons] at h
      rcases h with h | h

      · exact absurd h.symm hp
      · simp [dset, dget, hp, ih h]

theorem dget_dset_ne {α : Type} {d : List (String × α)} {k k' : String}
    (v : α) (dflt : α) (h : k' ≠ k) :
    dget (dset d k v) k' dflt = dget d k' dflt := by
  induction d with
  | nil => rfl
  | cons p d ih =>
    by_cases hp : p.1 = k
    · have hk : k ≠ k' := fun hh => h hh.symm
      simp [dset, dget, hp, hk, ih]
    · simp only [dset, if_neg hp, dget]
      by_cases hq : p.1 = k' <;> simp [hq, ih]

theorem dset_not_mem {α : Type} {d : List (String × α)} {k : String}
    (v : α) (h : k ∉ d.map Prod.fst) :
    dset d k v = d := by
  induction d with
  | nil => rfl
  | cons p d ih =>
    simp only [List.map_cons, List.mem_cons] at h
    push_neg at h
    have hp : p.1 ≠ k := fun hh => h.1 hh.symm
    simp [dset, hp, ih h.2]

theorem dget_map_mem {α : Type} {l : List String} {k : String}
    (f : String → α) (dflt : α) (h : k ∈ l) :
    dget (l.map (fun a => (a, f a))) k dflt = f k := by
  induction l with
  | nil => simp at h
  | cons a l ih =>
    rcases List.mem_cons.mp h with h | h
    · simp [dget, h.symm]
    · by_cases ha : a = k
      · simp [dget, ha]
      · simp [dget, ha, ih h]

theorem dget_map_not_mem {α : Type} {l : List String} {k : String}
    (f : String → α) (dflt : α) (h : k ∉ l) :
    dget (l.map (fun a => (a, f a))) k dflt = dflt := by
  induction l with
  | nil => rfl
  | cons a l ih =>
    simp only [List.mem_cons] at h
    push_neg at h
    have ha : a ≠ k := fun hh => h.1 hh.symm
    simp [dget, ha, ih h.2]

/-! ## C1: the running-average regret update -/

theorem regret_fold (t : ℕ) (u_old opp : ℚ) :
    ∀ (subs inner : List (String × ℚ)),
      (subs.map Prod.fst).Nodup →
      (∀ q ∈ subs, q.1 ∈ inner.map Prod.fst) →
      (∀ a u, (a, u) ∈ subs →
        dget (subs.foldl
          (fun inn mu =>
            let regret := dget inn mu.1 0
            dset inn mu.1
              ((regret * (t : ℚ) + opp * (mu.2 - u_old)) / ((t : ℚ) + 1)))
          inner) a 0
          = (dget inner a 0 * (t : ℚ) + opp * (u - u_old)) / ((t : ℚ) + 1))
      ∧ (∀ a, a ∉ subs.map Prod.fst →
        dget (subs.foldl
          (fun inn mu =>
            let regret := dget inn mu.1 0
            dset inn mu.1
              ((regret * (t : ℚ) + opp * (mu.2 - u_old)) / ((t : ℚ) + 1)))
          inner) a 0 = dget inner a 0) := by
  intro subs
  induction subs with
  | nil =>
    intro inner _ _
    exact ⟨fun a u h => absurd h (List.not_mem_nil _), fun a _ => rfl⟩
  | cons mu rest ih =>
    intro inner hnd hsub
    simp only [List.map_cons, List.nodup_cons] at hnd
    have hmem : mu.1 ∈ inner.map Prod.fst := hsub mu (List.mem_cons_self _ _)
    have hsub' : ∀ q ∈ rest, q.1 ∈
        (dset inner mu.1
          ((dget inner mu.1 0 * (t : ℚ) + opp * (mu.2 - u_old)) / ((t : ℚ) + 1))).map Prod.fst := by
      intro q hq
      rw [dset_map_fst]
      exact hsub q (List.mem_cons_of_mem _ hq)
    have IH := ih (dset inner mu.1
      ((dget inner mu.1 0 * (t : ℚ) + opp * (mu.2 - u_old)) / ((t : ℚ) + 1)))
      hnd.2 hsub'
    constructor
    · intro a u hu
      rcases List.mem_cons.mp hu with hu | hu
      · have ha : a = mu.1 := congrArg Prod.fst hu
        have hv : u = mu.2 := congrArg Prod.snd hu
        subst ha; subst hv
        have hout : mu.1 ∉ rest.map Prod.fst := hnd.1
        rw [List.foldl_cons]
        rw [IH.2 mu.1 hout]
        exact dget_dset_self _ 0 hmem
      · have ha : a ∈ rest.map Prod.fst := by
          exact List.mem_map.mpr ⟨(a, u), hu, rfl⟩
        have hane : a ≠ mu.1 := fun hh => hnd.1 (hh ▸ ha)
        rw [List.foldl_cons]
        rw [IH.1 a u hu]
        rw [dget_dset_ne _ 0 hane]
    · intro a hnot
      simp only [List.map_cons, List.mem_cons] at hnot
      push_neg at hnot
      rw [List.foldl_cons]
      rw [IH.2 a hnot.2]
      exact dget_dset_ne _ 0 hnot.1

/-- C1: for a registered information set, `update_regret` with per-action
child utilities `u(a)` (for the actions with an expanded child), baseline
`u_old` and opponent reach `opp` replaces each such action's regret by
`(regret * t + opp * (u(a) - u_old)) / (t + 1)` with `t` the pre-call visit
count, leaves every other action's regret unchanged, and sets the visit count
to `t + 1` — an increase of exactly one per call, however many actions
exist. -/
theorem C1_update_regret_formula (s : StrategyState) (info : String)
    (u_old opp : ℚ) (subs : List (String × ℚ))
    (hnd : (subs.map Prod.fst).Nodup)
    (hsub : ∀ q ∈ subs, q.1 ∈ (dget s.regret info []).map Prod.fst)
    (hreg : info ∈ s.regret.map Prod.fst)
    (hvis : info ∈ s.info_turn.map Prod.fst) :
    (∀ a u, (a, u) ∈ subs →
        dget (dget (s.update_regret info u_old opp subs).regret info []) a 0
          = (dget (dget s.regret info []) a 0 * ((dget s.info_turn info 0 : ℕ) : ℚ)
              + opp * (u - u_old)) / (((dget s.info_turn info 0 : ℕ) : ℚ) + 1))
    ∧ (∀ a, a ∉ subs.map Prod.fst →
        dget (dget (s.update_regret info u_old opp subs).regret info []) a 0
          = dget (dget s.regret info []) a 0)
    ∧ dget (s.update_regret info u_old opp subs).info_turn info 0
        = dget s.info_turn info 0 + 1 := by
  have hfold := regret_fold (dget s.info_turn info 0) u_old opp subs
    (dget s.regret info []) hnd hsub
  have houter : dget (s.update_regret info u_old opp subs).regret info [] =
      subs.foldl
        (fun inn mu =>
          let regret := dget inn mu.1 0
          dset inn mu.1
            ((regret * ((dget s.info_turn info 0 : ℕ) : ℚ) + opp * (mu.2 - u_old))
              / (((dget s.info_turn info 0 : ℕ) : ℚ) + 1)))
        (dget s.regret info []) := by
    unfold StrategyState.update_regret
    exact dget_dset_self _ [] hreg
  refine ⟨fun a u hu => ?_, fun a ha => ?_, ?_⟩
  · rw [houter]; exact hfold.1 a u hu
  · rw [houter]; exact hfold.2 a ha
  · unfold StrategyState.update_regret
    exact dget_dset_self _ 0 hvis

/-- Witness for C1 at a concrete input: a fresh player-2 store, one
`update_regret` call with two expanded children; the visit count goes from 0
to 1. -/
theorem C1_update_regret_formula_witness :
    dget ((StrategyState.init ["nothing"] ["head", "tail"]).update_regret
        "nothing" 0 (1/2) [("head", 1), ("tail", -1)]).info_turn "nothing" 0
      = dget (StrategyState.init ["nothing"] ["head", "tail"]).info_turn "nothing" 0 + 1 :=
  (C1_update_regret_formula (StrategyState.init ["nothing"] ["head", "tail"])
    "nothing" 0 (1/2) [("head", 1), ("tail", -1)]
    (by decide) (by decide) (by decide) (by decide)).2.2

/-! ## C2: regret matching in `update_pi` -/

theorem posPart_as_ite (r : ℚ) : max r 0 = if r > 0 then r else 0 := by
  by_cases h : r > 0
  · simp [h, le_of_lt h]
  · simp [h, le_of_not_lt h]

theorem map_dget_sum (f : ℚ → ℚ) :
    ∀ (inner : List (String × ℚ)), (inner.map Prod.fst).Nodup →
      ((inner.map Prod.fst).map (fun a => f (dget inner a 0))).sum
        = (inner.map (fun p => f p.2)).sum := by
  intro inner
  induction inner with
  | nil => intro _; rfl
  | cons q rest ih =>
    intro hnd
    simp only [List.map_cons, List.nodup_cons] at hnd ⊢
    simp only [List.sum_cons]
    have hq : dget (q :: rest) q.1 0 = q.2 := by simp [dget]
    have hcong : (rest.map Prod.fst).map (fun a => f (dget (q :: rest) a 0))
        = (rest.map Prod.fst).map (fun a => f (dget rest a 0)) := by
      apply List.map_congr_left
      intro a ha
      have hne : q.1 ≠ a := fun hh => hnd.1 (hh ▸ ha)
      simp [dget, hne]
    rw [hq, hcong, ih hnd.2]

theorem fold_dset_pointwise (g : String → ℚ → ℚ) :
    ∀ (ks : List String) (inner : List (String × ℚ)),
      ks.Nodup → (∀ a ∈ ks, a ∈ inner.map Prod.fst) →
      (∀ a ∈ ks,
        dget (ks.foldl (fun d a => dset d a (g a (dget d a 0))) inner) a 0
          = g a (dget inner a 0))
      ∧ (∀ a, a ∉ ks →
        dget (ks.foldl (fun d a => dset d a (g a (dget d a 0))) inner) a 0
          = dget inner a 0) := by
  intro ks
  induction ks with
  | nil =>
    intro inner _ _
    exact ⟨fun a h => absurd h (List.not_mem_nil _), fun a _ => rfl⟩
  | cons k rest ih =>
    intro inner hnd hmem
    simp only [List.nodup_cons] at hnd
    have hk : k ∈ inner.map Prod.fst := hmem k (List.mem_cons_self _ _)
    have hmem' : ∀ a ∈ rest, a ∈ (dset inner k (g k (dget inner k 0))).map Prod.fst := by
      intro a ha
      rw [dset_map_fst]
      exact hmem a (List.mem_cons_of_mem _ ha)
    have IH := ih (dset inner k (g k (dget inner k 0))) hnd.2 hmem'
    constructor
    · intro a ha
      rcases List.mem_cons.mp ha with ha | ha
      · subst ha
        rw [List.foldl_cons, IH.2 a hnd.1]
        exact dget_dset_self _ 0 hk
      · have hane : a ≠ k := fun hh => hnd.1 (hh ▸ ha)
        rw [List.foldl_cons, IH.1 a ha, dget_dset_ne _ 0 hane]
    · intro a ha
      simp only [List.mem_cons] at ha
      push_neg at ha
      rw [List.foldl_cons, IH.2 a ha.2]
      exact dget_dset_ne _ 0 ha.1


theorem update_pi_pi (s : StrategyState) (info : String) :
    (s.update_pi info).pi = dset s.pi info (newPiOf s info) := rfl

theorem update_pi_pi_sum (s : StrategyState) (info : String) :
    (s.update_pi info).pi_sum = dset s.pi_sum info
      (s.action_list.foldl
        (fun d a => dset d a (dget d a 0 + dget (newPiOf s info) a 0))
        (dget s.pi_sum info [])) := rfl

theorem update_pi_regret (s : StrategyState) (info : String) :
    (s.update_pi info).regret = s.regret := rfl

theorem update_pi_action_list (s : StrategyState) (info : String) :
    (s.update_pi info).action_list = s.action_list := rfl

theorem update_pi_info_list (s : StrategyState) (info : String) :
    (s.update_pi info).info_list = s.info_list := rfl

theorem update_pi_info_turn (s : StrategyState) (info : String) :
    (s.update_pi info).info_turn = s.info_turn := rfl

theorem update_regret_pi (s : StrategyState) (info : String) (u_old opp : ℚ)
    (subs : List (String × ℚ)) :
    (s.update_regret info u_old opp subs).pi = s.pi := rfl

theorem update_regret_pi_sum (s : StrategyState) (info : String) (u_old opp : ℚ)
    (subs : List (String × ℚ)) :
    (s.update_regret info u_old opp subs).pi_sum = s.pi_sum := rfl

theorem update_regret_action_list (s : StrategyState) (info : String) (u_old opp : ℚ)
    (subs : List (String × ℚ)) :
    (s.update_regret info u_old opp subs).action_list = s.action_list := rfl

theorem update_regret_info_list (s : StrategyState) (info : String) (u_old opp : ℚ)
    (subs : List (String × ℚ)) :
    (s.update_regret info u_old opp subs).info_list = s.info_list := rfl

/-- C2: `update_pi` computes the positive part of each action's regret
(`max(regret, 0)`) and the total of those positive parts over the action set;
if the total is `≤ 0` the new `pi[info]` is the exact uniform distribution
over the action set, otherwise each action gets its positive regret divided
by the total; and in both branches the just-computed `pi[info][a]` is added
into `pi_sum[info][a]` for every action (unconditionally, including the
uniform-fallback branch). -/
theorem C2_update_pi_regret_matching (s : StrategyState) (info : String)
    (hnd : s.action_list.Nodup)
    (hrk : (dget s.regret info []).map Prod.fst = s.action_list)
    (hpik : info ∈ s.pi.map Prod.fst)
    (hpsk : (dget s.pi_sum info []).map Prod.fst = s.action_list)
    (hpsm : info ∈ s.pi_sum.map Prod.fst) :
    (∀ a ∈ s.action_list,
      (s.update_pi info).get_pi info a =
        if (s.action_list.map (fun b => max (dget (dget s.regret info []) b 0) 0)).sum ≤ 0
        then 1 / (s.action_list.length : ℚ)
        else max (dget (dget s.regret info []) a 0) 0
          / (s.action_list.map (fun b => max (dget (dget s.regret info []) b 0) 0)).sum)
    ∧ (∀ a ∈ s.action_list,
      dget (dget (s.update_pi info).pi_sum info []) a 0
        = dget (dget s.pi_sum info []) a 0 + (s.update_pi info).get_pi info a) := by
  have hmax : s.action_list.map (fun b => max (dget (dget s.regret info []) b 0) 0)
      = s.action_list.map (fun b =>
          if dget (dget s.regret info []) b 0 > 0 then dget (dget s.regret info []) b 0 else 0) :=
    List.map_congr_left fun b _ => posPart_as_ite _
  have htot : (s.action_list.map (fun b => max (dget (dget s.regret info []) b 0) 0)).sum
      = ((dget s.regret info []).map (fun p => if p.2 > 0 then p.2 else 0)).sum := by
    rw [hmax]
    have h := map_dget_sum (fun r => if r > 0 then r else 0) (dget s.regret info [])
      (by rw [hrk]; exact hnd)
    rw [hrk] at h
    exact h
  have hpi_inner : dget (s.update_pi info).pi info [] = newPiOf s info := by
    rw [update_pi_pi]
    exact dget_dset_self _ [] hpik
  have hget : ∀ a : String, (s.update_pi info).get_pi info a = dget (newPiOf s info) a 0 := by
    intro a
    unfold StrategyState.get_pi
    rw [hpi_inner]
  constructor
  · intro a ha
    rw [hget a, htot]
    unfold newPiOf
    simp only []
    by_cases hc : ((dget s.regret info []).map (fun p => if p.2 > 0 then p.2 else 0)).sum ≤ 0
    · rw [if_pos hc, if_pos hc]
      exact dget_map_mem _ 0 ha
    · rw [if_neg hc, if_neg hc, posPart_as_ite]
      exact dget_map_mem _ 0 ha
  · intro a ha
    have hps : dget (s.update_pi info).pi_sum info [] =
        s.action_list.foldl
          (fun d b => dset d b (dget d b 0 + dget (newPiOf s info) b 0))
          (dget s.pi_sum info []) := by
      rw [update_pi_pi_sum]
      exact dget_dset_self _ [] hpsm
    rw [hps, hget a]
    exact (fold_dset_pointwise (fun b v => v + dget (newPiOf s info) b 0)
      s.action_list (dget s.pi_sum info []) hnd
      (by intro b hb; rw [hpsk]; exact hb)).1 a ha

/-- Witness for C2 at a concrete input: a fresh player-2 store has
all-non-positive regret, so one `update_pi` yields the exact uniform 1/2 for
action "head" and accumulates it into `pi_sum`. -/
theorem C2_update_pi_regret_matching_witness :
    ((StrategyState.init ["nothing"] ["head", "tail"]).update_pi "nothing").get_pi "nothing" "head"
      = (if ((["head", "tail"] : List String).map (fun b =>
            max (dget (dget (StrategyState.init ["nothing"] ["head", "tail"]).regret "nothing" []) b 0) 0)).sum ≤ 0
        then 1 / (((["head", "tail"] : List String)).length : ℚ)
        else max (dget (dget (StrategyState.init ["nothing"] ["head", "tail"]).regret "nothing" []) "head" 0) 0
          / ((["head", "tail"] : List String).map (fun b =>
            max (dget (dget (StrategyState.init ["nothing"] ["head", "tail"]).regret "nothing" []) b 0) 0)).sum) :=
  (C2_update_pi_regret_matching (StrategyState.init ["nothing"] ["head", "tail"]) "nothing"
    (by decide) (by decide) (by decide) (by decide) (by decide)).1 "head" (by decide)

/-! ## C9: construction with empty action/information sets -/

theorem list_mapM_ok {β : Type} (f : String → Except String β) (g : String → β)
    (h : ∀ a, f a = .ok (g a)) : ∀ l : List String, l.mapM f = .ok (l.map g) := by
  intro l
  induction l with
  | nil => rfl
  | cons x rest ih =>
    rw [List.mapM_cons, h x, ih]
    rfl

/-- The constructor, with Python's `ZeroDivisionError` modelled explicitly,
never raises: the division body of the comprehension runs only once per
`(info, action)` pair, and whenever it runs the action list is non-empty, so
its length is non-zero. -/
theorem initE_never_fails (il al : List String) :
    StrategyState.initE il al = .ok (StrategyState.init il al) := by
  have hinner : al.mapM (fun a => do
      let v ← pydiv 1 (al.length : ℚ)
      return (a, v)) = Except.ok (al.map (fun a => (a, 1 / (al.length : ℚ)))) := by
    cases al with
    | nil => rfl
    | cons x rest =>
      have hlen : (((x :: rest).length : ℕ) : ℚ) ≠ 0 := by
        rw [Nat.cast_ne_zero]
        exact Nat.succ_ne_zero _
      apply list_mapM_ok
      intro a
      show (pydiv 1 (((x :: rest).length : ℕ) : ℚ)).bind _ = _
      unfold pydiv
      rw [if_neg hlen]
      rfl
  unfold StrategyState.initE
  have houter : il.mapM (fun i => (do
      let inner ← al.mapM (fun a => do
        let v ← pydiv 1 (al.length : ℚ)
        return (a, v))
      return (i, inner) : Except String (String × List (String × ℚ))))
      = Except.ok (il.map (fun i => (i, al.map (fun a => (a, 1 / (al.length : ℚ)))))) := by
    apply list_mapM_ok
    intro i
    rw [hinner]
    rfl
  rw [houter]
  rfl

/-- Counterexample for C9: constructing with an empty action set (and with an
empty information-set set) succeeds — no error is raised at construction
time, a usable (empty-tabled) store is produced. -/
theorem C9_counterexample_empty_sets_construct :
    (StrategyState.initE ["nothing"] []).isOk = true
    ∧ (StrategyState.initE [] ["head"]).isOk = true
    ∧ StrategyState.initE ["nothing"] [] = .ok (StrategyState.init ["nothing"] []) := by
  refine ⟨?_, ?_, initE_never_fails _ _⟩ <;> rfl

/-- C9 amended: construction never fails, whatever the two lists are; with an
empty action set or empty information-set set it silently produces the store
with the corresponding empty tables (the `1/len(action_list)` division is
never evaluated for an empty comprehension). -/
theorem C9_construction_never_fails (il al : List String) :
    StrategyState.initE il al = .ok (StrategyState.init il al) :=
  initE_never_fails il al

/-! ## C7: boundedness of the running-average regret -/

theorem dget_forall {α : Type} (P : α → Prop) :
    ∀ (d : List (String × α)) (k : String) (dflt : α),
      (∀ p ∈ d, P p.2) → P dflt → P (dget d k dflt) := by
  intro d
  induction d with
  | nil => intro k dflt _ h; exact h
  | cons p d ih =>
    intro k dflt hd hdflt
    by_cases hp : p.1 = k
    · simp only [dget, if_pos hp]
      exact hd p (List.mem_cons_self _ _)
    · simp only [dget, if_neg hp]
      exact ih k dflt (fun q hq => hd q (List.mem_cons_of_mem _ hq)) hdflt

theorem dset_forall {α : Type} (P : α → Prop) :
    ∀ (d : List (String × α)) (k : String) (v : α),
      (∀ p ∈ d, P p.2) → P v → (∀ p ∈ dset d k v, P p.2) := by
  intro d
  induction d with
  | nil => intro k v _ _ p hp; exact absurd hp (List.not_mem_nil _)
  | cons q d ih =>
    intro k v hd hv p hp
    rcases List.mem_cons.mp hp with hp | hp
    · by_cases hq : q.1 = k
      · rw [hp]; simpa [hq] using hv
      · rw [hp]; simp only [if_neg hq]
        exact hd q (List.mem_cons_self _ _)
    · exact ih k v (fun r hr => hd r (List.mem_cons_of_mem _ hr)) hv p hp

theorem scaled_diff_bounded (lo hi c u uo : ℚ)
    (hc0 : 0 ≤ c) (hc1 : c ≤ 1)
    (hu : lo ≤ u ∧ u ≤ hi) (huo : lo ≤ uo ∧ uo ≤ hi) :
    lo - hi ≤ c * (u - uo) ∧ c * (u - uo) ≤ hi - lo := by
  constructor
  · nlinarith [hu.1, hu.2, huo.1, huo.2]
  · nlinarith [hu.1, hu.2, huo.1, huo.2]

theorem running_avg_bounded (L H r d : ℚ) (t : ℕ)
    (hr : L ≤ r ∧ r ≤ H) (hd : L ≤ d ∧ d ≤ H) :
    L ≤ (r * (t : ℚ) + d) / ((t : ℚ) + 1)
    ∧ (r * (t : ℚ) + d) / ((t : ℚ) + 1) ≤ H := by
  have ht : (0 : ℚ) ≤ (t : ℚ) := Nat.cast_nonneg _
  have ht1 : (0 : ℚ) < (t : ℚ) + 1 := by linarith
  constructor
  · rw [le_div_iff₀ ht1]
    nlinarith [hr.1, hd.1]
  · rw [div_le_iff₀ ht1]
    nlinarith [hr.2, hd.2]

/-- All regret values stored in a store lie in `[L, H]`. -/
def RegretValsIn (L H : ℚ) (s : StrategyState) : Prop :=
  ∀ p ∈ s.regret, ∀ q ∈ p.2, L ≤ q.2 ∧ q.2 ≤ H

theorem regretValsIn_init (L H : ℚ) (hL : L ≤ 0) (hH : 0 ≤ H)
    (il al : List String) : RegretValsIn L H (StrategyState.init il al) := by
  intro p hp q hq
  unfold StrategyState.init at hp
  simp only [List.mem_map] at hp
  obtain ⟨i, _, hi⟩ := hp
  rw [← hi] at hq
  simp only [List.mem_map] at hq
  obtain ⟨a, _, ha⟩ := hq
  rw [← ha]
  exact ⟨hL, hH⟩

theorem regretValsIn_update_regret (lo hi : ℚ) (hlh : lo ≤ hi)
    (s : StrategyState) (info : String) (u_old opp : ℚ)
    (subs : List (String × ℚ))
    (hs : RegretValsIn (lo - hi) (hi - lo) s)
    (huo : lo ≤ u_old ∧ u_old ≤ hi)
    (hopp : 0 ≤ opp ∧ opp ≤ 1)
    (hsubs : ∀ q ∈ subs, lo ≤ q.2 ∧ q.2 ≤ hi) :
    RegretValsIn (lo - hi) (hi - lo) (s.update_regret info u_old opp subs) := by
  have hL : lo - hi ≤ 0 := by linarith
  have hH : (0 : ℚ) ≤ hi - lo := by linarith
  have hinner0 : ∀ q ∈ dget s.regret info [], lo - hi ≤ q.2 ∧ q.2 ≤ hi - lo := by
    have := dget_forall (fun inn => ∀ q ∈ inn, lo - hi ≤ q.2 ∧ q.2 ≤ hi - lo)
      s.regret info [] (fun p hp => hs p hp) (fun q hq => absurd hq (List.not_mem_nil _))
    exact this
  have hfold : ∀ (l : List (String × ℚ)) (inn : List (String × ℚ)),
      (∀ q ∈ l, lo ≤ q.2 ∧ q.2 ≤ hi) →
      (∀ q ∈ inn, lo - hi ≤ q.2 ∧ q.2 ≤ hi - lo) →
      ∀ q ∈ l.foldl
        (fun inn mu =>
          let regret := dget inn mu.1 0
          dset inn mu.1 ((regret * ((dget s.info_turn info 0 : ℕ) : ℚ)
            + opp * (mu.2 - u_old)) / (((dget s.info_turn info 0 : ℕ) : ℚ) + 1)))
        inn, lo - hi ≤ q.2 ∧ q.2 ≤ hi - lo := by
    intro l
    induction l with
    | nil => intro inn _ hinn q hq; exact hinn q hq
    | cons mu rest ih =>
      intro inn hl hinn
      rw [List.foldl_cons]
      apply ih _ (fun q hq => hl q (List.mem_cons_of_mem _ hq))
      exact dset_forall (fun v => lo - hi ≤ v ∧ v ≤ hi - lo) inn mu.1 _ hinn
        (running_avg_bounded _ _ _ _ _
          (dget_forall (fun v => lo - hi ≤ v ∧ v ≤ hi - lo) inn mu.1 0 hinn ⟨hL, hH⟩)
          (scaled_diff_bounded lo hi opp mu.2 u_old hopp.1 hopp.2
            (hl mu (List.mem_cons_self _ _)) huo))
  intro p hp q hq
  unfold StrategyState.update_regret at hp
  simp only [] at hp
  exact dset_forall
    (fun inn : List (String × ℚ) => ∀ q ∈ inn, lo - hi ≤ q.2 ∧ q.2 ≤ hi - lo)
    s.regret info _ hs (hfold subs (dget s.regret info []) hsubs hinner0) p hp q hq

/-- C7: starting from the zero-initialized store, any sequence of
`update_regret` calls whose baseline and per-action utilities lie in
`[lo, hi]` and whose opponent reach lies in `[0, 1]` keeps every regret value
(of every information set and action) within `[lo - hi, hi - lo]`: each value
is a time-weighted average of increments bounded by that interval. -/
theorem C7_regret_bounded (lo hi : ℚ) (hlh : lo ≤ hi) (il al : List String)
    (calls : List (String × ℚ × ℚ × List (String × ℚ)))
    (hcalls : ∀ c ∈ calls,
      (lo ≤ c.2.1 ∧ c.2.1 ≤ hi)
      ∧ (0 ≤ c.2.2.1 ∧ c.2.2.1 ≤ 1)
      ∧ (∀ q ∈ c.2.2.2, lo ≤ q.2 ∧ q.2 ≤ hi)) :
    ∀ info a,
      lo - hi ≤ dget (dget (calls.foldl
          (fun s c => s.update_regret c.1 c.2.1 c.2.2.1 c.2.2.2)
          (StrategyState.init il al)).regret info []) a 0
      ∧ dget (dget (calls.foldl
          (fun s c => s.update_regret c.1 c.2.1 c.2.2.1 c.2.2.2)
          (StrategyState.init il al)).regret info []) a 0 ≤ hi - lo := by
  have hL : lo - hi ≤ 0 := by linarith
  have hH : (0 : ℚ) ≤ hi - lo := by linarith
  have hmain : ∀ (cs : List (String × ℚ × ℚ × List (String × ℚ))) (s : StrategyState),
      (∀ c ∈ cs,
        (lo ≤ c.2.1 ∧ c.2.1 ≤ hi)
        ∧ (0 ≤ c.2.2.1 ∧ c.2.2.1 ≤ 1)
        ∧ (∀ q ∈ c.2.2.2, lo ≤ q.2 ∧ q.2 ≤ hi)) →
      RegretValsIn (lo - hi) (hi - lo) s →
      RegretValsIn (lo - hi) (hi - lo)
        (cs.foldl (fun s c => s.update_regret c.1 c.2.1 c.2.2.1 c.2.2.2) s) := by
    intro cs
    induction cs with
    | nil => intro s _ hs; exact hs
    | cons c rest ih =>
      intro s hcs hs
      rw [List.foldl_cons]
      refine ih _ (fun d hd => hcs d (List.mem_cons_of_mem _ hd)) ?_
      have hc := hcs c (List.mem_cons_self _ _)
      exact regretValsIn_update_regret lo hi hlh s c.1 c.2.1 c.2.2.1 c.2.2.2 hs
        hc.1 hc.2.1 hc.2.2
  intro info a
  have hfinal := hmain calls (StrategyState.init il al) hcalls
    (regretValsIn_init _ _ hL hH il al)
  apply dget_forall (fun v => lo - hi ≤ v ∧ v ≤ hi - lo)
  · intro q hq
    exact dget_forall (fun inn => ∀ q ∈ inn, lo - hi ≤ q.2 ∧ q.2 ≤ hi - lo)
      _ info [] (fun p hp => hfinal p hp) (fun r hr => absurd hr (List.not_mem_nil _)) q hq
  · exact ⟨hL, hH⟩

/-- Witness for C7 at a concrete input: two calls with utilities in
`[-1, 1]` and opponent reach `1/2` keep the regret of "head" within
`[-2, 2]`. -/
theorem C7_regret_bounded_witness :
    (-1 : ℚ) - 1 ≤ dget (dget (List.foldl
        (fun s c => s.update_regret c.1 c.2.1 c.2.2.1 c.2.2.2)
        (StrategyState.init ["nothing"] ["head", "tail"])
        [("nothing", (0 : ℚ), (1/2 : ℚ), [("head", (1 : ℚ)), ("tail", (-1 : ℚ))])]).regret
        "nothing" []) "head" 0
    ∧ dget (dget (List.foldl
        (fun s c => s.update_regret c.1 c.2.1 c.2.2.1 c.2.2.2)
        (StrategyState.init ["nothing"] ["head", "tail"])
        [("nothing", (0 : ℚ), (1/2 : ℚ), [("head", (1 : ℚ)), ("tail", (-1 : ℚ))])]).regret
        "nothing" []) "head" 0 ≤ (1 : ℚ) - (-1) :=
  C7_regret_bounded (-1) 1 (by norm_num) ["nothing"] ["head", "tail"]
    [("nothing", 0, 1/2, [("head", 1), ("tail", -1)])]
    (by
      intro c hc
      rcases List.mem_cons.mp hc with hc | hc
      · subst hc
        refine ⟨⟨by norm_num, by norm_num⟩, ⟨by norm_num, by norm_num⟩, ?_⟩
        intro q hq
        rcases List.mem_cons.mp hq with hq | hq
        · subst hq; exact ⟨by norm_num, by norm_num⟩
        · rcases List.mem_cons.mp hq with hq | hq
          · subst hq; exact ⟨by norm_num, by norm_num⟩
          · exact absurd hq (List.not_mem_nil _)
      · exact absurd hc (List.not_mem_nil _))
    "nothing" "head"

/-! ## C6: the current strategy is always a probability distribution -/

theorem dget_forall_mem {α : Type} (P : α → Prop) :
    ∀ (d : List (String × α)) (k : String) (dflt : α),
      (∀ p ∈ d, P p.2) → k ∈ d.map Prod.fst → P (dget d k dflt) := by
  intro d
  induction d with
  | nil => intro k dflt _ hk; simp at hk
  | cons p d ih =>
    intro k dflt hd hk
    by_cases hp : p.1 = k
    · simp only [dget, if_pos hp]
      exact hd p (List.mem_cons_self _ _)
    · simp only [dget, if_neg hp]
      simp only [List.map_cons, List.mem_cons] at hk
      rcases hk with hk | hk
      · exact absurd hk.symm hp
      · exact ih k dflt (fun q hq => hd q (List.mem_cons_of_mem _ hq)) hk

theorem foldl_dset_map_fst {β : Type} (key : β → String)
    (f : List (String × ℚ) → β → ℚ) :
    ∀ (l : List β) (inn : List (String × ℚ)),
      (l.foldl (fun inn b => dset inn (key b) (f inn b)) inn).map Prod.fst
        = inn.map Prod.fst := by
  intro l
  induction l with
  | nil => intro inn; rfl
  | cons b l ih =>
    intro inn
    rw [List.foldl_cons, ih, dset_map_fst]

theorem map_pair_fst {α : Type} (f : String → α) :
    ∀ l : List String, (l.map (fun a => (a, f a))).map Prod.fst = l := by
  intro l
  induction l with
  | nil => rfl
  | cons a l ih => simp [ih]

theorem map_const_sum (c : ℚ) :
    ∀ l : List String, (l.map (fun _ => c)).sum = (l.length : ℚ) * c := by
  intro l
  induction l with
  | nil => simp
  | cons a l ih =>
    simp only [List.map_cons, List.sum_cons, ih, List.length_cons]
    push_cast
    ring

/-- The four tables keep the key structure laid down by the constructor:
outer keys are the information sets, inner keys the action set. -/
def TablesWF (s : StrategyState) : Prop :=
  s.pi.map Prod.fst = s.info_list
  ∧ s.regret.map Prod.fst = s.info_list
  ∧ (∀ p ∈ s.pi, p.2.map Prod.fst = s.action_list)
  ∧ (∀ p ∈ s.regret, p.2.map Prod.fst = s.action_list)

/-- `pi[info]` is a probability distribution over the action set, for every
registered information set. -/
def PiIsDist (s : StrategyState) : Prop :=
  ∀ info ∈ s.info_list,
    (dget s.pi info []).map Prod.fst = s.action_list
    ∧ (∀ q ∈ dget s.pi info [], 0 ≤ q.2)
    ∧ ((dget s.pi info []).map Prod.snd).sum = 1

theorem newPiOf_map_fst (s : StrategyState) (info : String) :
    (newPiOf s info).map Prod.fst = s.action_list := by
  unfold newPiOf
  simp only []
  by_cases h : ((dget s.regret info []).map (fun p => if p.2 > 0 then p.2 else 0)).sum ≤ 0
  · rw [if_pos h, map_pair_fst]
  · rw [if_neg h, map_pair_fst]

theorem newPiOf_nonneg (s : StrategyState) (info : String) :
    ∀ q ∈ newPiOf s info, 0 ≤ q.2 := by
  intro q hq
  unfold newPiOf at hq
  simp only [] at hq
  by_cases h : ((dget s.regret info []).map (fun p => if p.2 > 0 then p.2 else 0)).sum ≤ 0
  · rw [if_pos h] at hq
    simp only [List.mem_map] at hq
    obtain ⟨a, _, ha⟩ := hq
    rw [← ha]
    exact one_div_nonneg.mpr (Nat.cast_nonneg _)
  · rw [if_neg h] at hq
    simp only [List.mem_map] at hq
    obtain ⟨a, _, ha⟩ := hq
    rw [← ha]
    have hpos : (0 : ℚ) < ((dget s.regret info []).map (fun p => if p.2 > 0 then p.2 else 0)).sum :=
      lt_of_not_le h
    apply div_nonneg _ (le_of_lt hpos)
    by_cases hr : dget (dget s.regret info []) a 0 > 0 <;> simp [hr]
    exact le_of_lt hr

theorem pair_map_snd {α : Type} (f : String → α) :
    ∀ l : List String, (l.map (fun a => (a, f a))).map Prod.snd = l.map f := by
  intro l
  induction l with
  | nil => rfl
  | cons a l ih => simp [ih]

theorem newPiOf_sum (s : StrategyState) (info : String)
    (hal : s.action_list ≠ []) (hnd : s.action_list.Nodup)
    (hkeys : (dget s.regret info []).map Prod.fst = s.action_list) :
    ((newPiOf s info).map Prod.snd).sum = 1 := by
  have hlen : ((s.action_list.length : ℕ) : ℚ) ≠ 0 := by
    rw [Nat.cast_ne_zero]
    exact fun hh => hal (List.eq_nil_of_length_eq_zero hh)
  unfold newPiOf
  simp only []
  by_cases h : ((dget s.regret info []).map (fun p => if p.2 > 0 then p.2 else 0)).sum ≤ 0
  · rw [if_pos h, pair_map_snd]
    rw [show (fun (_ : String) => 1 / ((s.action_list.length : ℕ) : ℚ))
        = (fun (_ : String) => 1 / ((s.action_list.length : ℕ) : ℚ)) from rfl]
    rw [map_const_sum]
    field_simp
  · rw [if_neg h, pair_map_snd]
    have hpos : (0 : ℚ) < ((dget s.regret info []).map (fun p => if p.2 > 0 then p.2 else 0)).sum :=
      lt_of_not_le h
    have hdiv : s.action_list.map (fun a =>
        (let r := dget (dget s.regret info []) a 0
         if r > 0 then r else 0)
          / ((dget s.regret info []).map (fun p => if p.2 > 0 then p.2 else 0)).sum)
        = s.action_list.map (fun a =>
        (if dget (dget s.regret info []) a 0 > 0 then dget (dget s.regret info []) a 0 else 0)
          * (((dget s.regret info []).map (fun p => if p.2 > 0 then p.2 else 0)).sum)⁻¹) := by
      apply List.map_congr_left
      intro a _
      rw [div_eq_mul_inv]
    rw [hdiv, List.sum_map_mul_right]
    have hsum := map_dget_sum (fun r => if r > 0 then r else 0) (dget s.regret info [])
      (by rw [hkeys]; exact hnd)
    rw [hkeys] at hsum
    rw [hsum]
    exact mul_inv_cancel₀ (ne_of_gt hpos)

theorem TablesWF_init (il al : List String) : TablesWF (StrategyState.init il al) := by
  refine ⟨map_pair_fst _ il, map_pair_fst _ il, ?_, ?_⟩
  · intro p hp
    unfold StrategyState.init at hp
    simp only [List.mem_map] at hp
    obtain ⟨i, _, hi⟩ := hp
    rw [← hi]
    exact map_pair_fst _ al
  · intro p hp
    unfold StrategyState.init at hp
    simp only [List.mem_map] at hp
    obtain ⟨i, _, hi⟩ := hp
    rw [← hi]
    exact map_pair_fst _ al

theorem update_regret_regret_keys (s : StrategyState) (info : String)
    (u_old opp : ℚ) (subs : List (String × ℚ)) :
    (s.update_regret info u_old opp subs).regret.map Prod.fst = s.regret.map Prod.fst := by
  unfold StrategyState.update_regret
  simp only []
  rw [dset_map_fst]

theorem update_regret_inner_keys (s : StrategyState) (info : String)
    (u_old opp : ℚ) (subs : List (String × ℚ))
    (hwf : ∀ p ∈ s.regret, p.2.map Prod.fst = s.action_list) :
    ∀ p ∈ (s.update_regret info u_old opp subs).regret, p.2.map Prod.fst = s.action_list := by
  by_cases hmem : info ∈ s.regret.map Prod.fst
  · intro p hp
    unfold StrategyState.update_regret at hp
    simp only [] at hp
    refine dset_forall (fun inn : List (String × ℚ) => inn.map Prod.fst = s.action_list)
      s.regret info _ hwf ?_ p hp
    have hkeys0 : (dget s.regret info []).map Prod.fst = s.action_list :=
      dget_forall_mem (fun inn : List (String × ℚ) => inn.map Prod.fst = s.action_list)
        s.regret info [] hwf hmem
    have := foldl_dset_map_fst (fun mu : String × ℚ => mu.1)
      (fun inn mu => (dget inn mu.1 0 * ((dget s.info_turn info 0 : ℕ) : ℚ)
        + opp * (mu.2 - u_old)) / (((dget s.info_turn info 0 : ℕ) : ℚ) + 1))
      subs (dget s.regret info [])
    rw [hkeys0] at this
    exact this
  · intro p hp
    unfold StrategyState.update_regret at hp
    simp only [] at hp
    rw [dset_not_mem _ hmem] at hp
    exact hwf p hp

theorem TablesWF_applyOp (s : StrategyState) (op : SSOp) (h : TablesWF s) :
    TablesWF (applyOp s op) := by
  obtain ⟨h1, h2, h3, h4⟩ := h
  cases op with
  | upd_pi info =>
    show TablesWF (s.update_pi info)
    refine ⟨?_, ?_, ?_, ?_⟩
    · rw [update_pi_pi, update_pi_info_list, dset_map_fst]; exact h1
    · rw [update_pi_regret, update_pi_info_list]; exact h2
    · rw [update_pi_pi, update_pi_action_list]
      exact dset_forall (fun inn : List (String × ℚ) => inn.map Prod.fst = s.action_list)
        s.pi info (newPiOf s info) h3 (newPiOf_map_fst s info)
    · rw [update_pi_regret, update_pi_action_list]; exact h4
  | upd_regret info u_old opp subs =>
    show TablesWF (s.update_regret info u_old opp subs)
    refine ⟨?_, ?_, ?_, ?_⟩
    · rw [update_regret_pi, update_regret_info_list]; exact h1
    · rw [update_regret_regret_keys, update_regret_info_list]; exact h2
    · rw [update_regret_pi, update_regret_action_list]; exact h3
    · rw [update_regret_action_list]
      exact update_regret_inner_keys s info u_old opp subs h4

theorem PiIsDist_init (il al : List String) (hal : al ≠ []) :
    PiIsDist (StrategyState.init il al) := by
  intro info hmem
  have hlen : ((al.length : ℕ) : ℚ) ≠ 0 := by
    rw [Nat.cast_ne_zero]
    exact fun hh => hal (List.eq_nil_of_length_eq_zero hh)
  have hpi : dget (StrategyState.init il al).pi info []
      = al.map (fun a => (a, 1 / (al.length : ℚ))) := by
    unfold StrategyState.init
    simp only []
    exact dget_map_mem _ [] hmem
  refine ⟨?_, ?_, ?_⟩
  · rw [hpi]
    exact map_pair_fst _ al
  · rw [hpi]
    intro q hq
    simp only [List.mem_map] at hq
    obtain ⟨a, _, ha⟩ := hq
    rw [← ha]
    exact one_div_nonneg.mpr (Nat.cast_nonneg _)
  · rw [hpi, pair_map_snd, map_const_sum]
    field_simp

theorem PiIsDist_applyOp (s : StrategyState) (op : SSOp)
    (hwf : TablesWF s) (hdist : PiIsDist s)
    (hal : s.action_list ≠ []) (hnd : s.action_list.Nodup) :
    PiIsDist (applyOp s op) := by
  obtain ⟨h1, h2, h3, h4⟩ := hwf
  cases op with
  | upd_regret info u_old opp subs =>
    show PiIsDist (s.update_regret info u_old opp subs)
    intro i hi
    rw [update_regret_info_list] at hi
    rw [update_regret_pi, update_regret_action_list]
    exact hdist i hi
  | upd_pi info =>
    show PiIsDist (s.update_pi info)
    intro i hi
    rw [update_pi_info_list] at hi
    rw [update_pi_pi, update_pi_action_list]
    by_cases heq : i = info
    · subst heq
      have hmem : i ∈ s.pi.map Prod.fst := by rw [h1]; exact hi
      rw [dget_dset_self _ [] hmem]
      have hrmem : i ∈ s.regret.map Prod.fst := by rw [h2]; exact hi
      have hrkeys : (dget s.regret i []).map Prod.fst = s.action_list :=
        dget_forall_mem (fun inn : List (String × ℚ) => inn.map Prod.fst = s.action_list)
          s.regret i [] h4 hrmem
      exact ⟨newPiOf_map_fst s i, newPiOf_nonneg s i, newPiOf_sum s i hal hnd hrkeys⟩
    · rw [dget_dset_ne _ [] heq]
      exact hdist i hi

theorem applyOps_info_list (ops : List SSOp) :
    ∀ s : StrategyState, (applyOps s ops).info_list = s.info_list := by
  induction ops with
  | nil => intro s; rfl
  | cons op rest ih =>
    intro s
    show (applyOps (applyOp s op) rest).info_list = s.info_list
    rw [ih]
    cases op with
    | upd_pi info => exact update_pi_info_list s info
    | upd_regret info u_old opp subs => exact update_regret_info_list s info u_old opp subs

theorem applyOps_action_list (ops : List SSOp) :
    ∀ s : StrategyState, (applyOps s ops).action_list = s.action_list := by
  induction ops with
  | nil => intro s; rfl
  | cons op rest ih =>
    intro s
    show (applyOps (applyOp s op) rest).action_list = s.action_list
    rw [ih]
    cases op with
    | upd_pi info => exact update_pi_action_list s info
    | upd_regret info u_old opp subs => exact update_regret_action_list s info u_old opp subs

/-- C6: for a store built over a non-empty, duplicate-free action set, after
any sequence of `update_pi` / `update_regret` calls (including the empty
sequence, i.e. at construction time), `pi[info]` is for every registered
information set a probability distribution over the action set: its keys are
exactly the action set, every entry is `≥ 0`, and the entries sum to exactly
1 (hence to 1 within any tolerance, in particular 1e-9). -/
theorem C6_strategy_always_distribution (il al : List String)
    (hal : al ≠ []) (hnd : al.Nodup) (ops : List SSOp) :
    PiIsDist (applyOps (StrategyState.init il al) ops) := by
  have hmain : ∀ (ops : List SSOp) (s : StrategyState),
      TablesWF s → PiIsDist s → s.action_list ≠ [] → s.action_list.Nodup →
      PiIsDist (applyOps s ops) := by
    intro ops
    induction ops with
    | nil => intro s _ hdist _ _; exact hdist
    | cons op rest ih =>
      intro s hwf hdist hal hnd
      show PiIsDist (applyOps (applyOp s op) rest)
      have hact : (applyOp s op).action_list = s.action_list := by
        cases op with
        | upd_pi info => exact update_pi_action_list s info
        | upd_regret info u_old opp subs => exact update_regret_action_list s info u_old opp subs
      exact ih (applyOp s op) (TablesWF_applyOp s op hwf)
        (PiIsDist_applyOp s op hwf hdist hal hnd)
        (by rw [hact]; exact hal) (by rw [hact]; exact hnd)
  exact hmain ops (StrategyState.init il al) (TablesWF_init il al)
    (PiIsDist_init il al hal) hal hnd

/-- Witness for C6 at a concrete input: after an `update_regret` followed by
an `update_pi` on a fresh player-2 store, the strategy entries for
information set "nothing" still sum to exactly 1. -/
theorem C6_strategy_always_distribution_witness :
    ((dget (applyOps (StrategyState.init ["nothing"] ["head", "tail"])
        [SSOp.upd_regret "nothing" 0 (1/2) [("head", 1), ("tail", -1)],
         SSOp.upd_pi "nothing"]).pi "nothing" []).map Prod.snd).sum = 1 :=
  (C6_strategy_always_distribution ["nothing"] ["head", "tail"]
    (by decide) (by decide)
    [SSOp.upd_regret "nothing" 0 (1/2) [("head", 1), ("tail", -1)],
     SSOp.upd_pi "nothing"] "nothing"
    (by with_unfolding_all decide)).2.2

/-! ## The tree walk: unfolding and the chance / terminal cases -/

theorem walktree_succ_eq {σ : Type} (g : Game σ) (fuel : ℕ) (st : σ) (r1 r2 : ℚ)
    (seq : List String) (π : Strategies) :
    walktree g (fuel+1) st r1 r2 seq π =
      (match g.get_player_next_moved st with
      | none =>
        match g.get_result st 1, g.get_result st 2 with
        | .ok v1, .ok v2 => some (CFRTree.mk v1 v2 [], π)
        | _, _ => none
      | some .chance =>
        match seq with
        | [] => none
        | move :: rest =>
          let next_state := g.do_move st move
          match walktree g fuel next_state r1 r2 rest π with
          | none => none
          | some (t, π') => some (CFRTree.mk t.u1 t.u2 [(move, t)], π')
      | some (.player p) =>
        let info := g.get_information st p
        let π0 := π.setStore p ((π.store p).update_pi info)
        match walkMoves (fun st' a b sq πc => walktree g fuel st' a b sq πc)
            g st p info r1 r2 seq (g.get_moves st) (0, 0) [] π0 with
        | none => none
        | some (u, subs, π1) =>
          let tr := CFRTree.mk u.1 u.2 subs
          let π2 := π1.setStore p
            ((π1.store p).update_regret info (tr.uFor p) (oppReach p r1 r2)
              (subs.map (fun mt => (mt.1, mt.2.uFor p))))
          some (tr, π2)) := rfl

/-- C4: at a chance node with a non-empty chance sequence, a completed walk
consumes exactly the first outcome of the sequence, applies it as the sole
move (a single child, no branching), recurses into that child with the
remaining tail and both reach probabilities unchanged, and copies the child's
utility vector as the node's own. -/
theorem C4_chance_consumes_one_outcome {σ : Type} (g : Game σ) (fuel : ℕ)
    (st : σ) (r1 r2 : ℚ) (move : String) (rest : List String)
    (π π' : Strategies) (tr : CFRTree)
    (hc : g.get_player_next_moved st = some .chance)
    (hw : walktree g (fuel+1) st r1 r2 (move :: rest) π = some (tr, π')) :
    ∃ t, walktree g fuel (g.do_move st move) r1 r2 rest π = some (t, π')
      ∧ tr.u1 = t.u1 ∧ tr.u2 = t.u2 ∧ tr.subs = [(move, t)] := by
  rw [walktree_succ_eq, hc] at hw
  simp only [] at hw
  split at hw
  · exact absurd hw (by simp)
  · rename_i t π'' heq
    rw [Option.some.injEq, Prod.mk.injEq] at hw
    refine ⟨t, ?_, ?_, ?_, ?_⟩
    · rw [← hw.2]; exact heq
    · rw [← hw.1]; rfl
    · rw [← hw.1]; rfl
    · rw [← hw.1]; rfl

/-- C10: a completed walk of a terminal node returns the strategy stores
exactly as it received them, and a completed walk of a chance node returns
exactly the stores its single child's walk produced — neither case reads or
writes any store itself. -/
theorem C10_terminal_chance_frame {σ : Type} (g : Game σ) (fuel : ℕ)
    (st : σ) (r1 r2 : ℚ) (seq : List String)
    (π π' : Strategies) (tr : CFRTree)
    (hw : walktree g (fuel+1) st r1 r2 seq π = some (tr, π')) :
    (g.get_player_next_moved st = none → π' = π)
    ∧ (g.get_player_next_moved st = some .chance →
        ∃ move rest t π'', seq = move :: rest
          ∧ walktree g fuel (g.do_move st move) r1 r2 rest π = some (t, π'')
          ∧ π' = π'') := by
  constructor
  · intro hterm
    rw [walktree_succ_eq, hterm] at hw
    simp only [] at hw
    split at hw
    · rw [Option.some.injEq, Prod.mk.injEq] at hw
      exact hw.2.symm
    · exact absurd hw (by simp)
  · intro hc
    rw [walktree_succ_eq, hc] at hw
    simp only [] at hw
    split at hw
    · exact absurd hw (by simp)
    · rename_i move rest
      split at hw
      · exact absurd hw (by simp)
      · rename_i t π'' heq
        rw [Option.some.injEq, Prod.mk.injEq] at hw
        exact ⟨move, rest, t, π'', rfl, heq, hw.2.symm⟩

/-- Witness for C4 at a concrete input: the chance node of `tinyGame`
consumes the single outcome "x" and copies the terminal child's utilities. -/
theorem C4_chance_consumes_one_outcome_witness :
    ∃ t, walktree tinyGame 1 (tinyGame.do_move 0 "x") 1 1 [] emptyStrategies
        = some (t, emptyStrategies)
      ∧ (CFRTree.mk 1 (-1) [("x", CFRTree.mk 1 (-1) [])]).u1 = t.u1
      ∧ (CFRTree.mk 1 (-1) [("x", CFRTree.mk 1 (-1) [])]).u2 = t.u2
      ∧ (CFRTree.mk 1 (-1) [("x", CFRTree.mk 1 (-1) [])]).subs = [("x", t)] :=
  C4_chance_consumes_one_outcome tinyGame 1 0 1 1 "x" [] emptyStrategies emptyStrategies
    (CFRTree.mk 1 (-1) [("x", CFRTree.mk 1 (-1) [])]) rfl (by with_unfolding_all rfl)

/-- Witness for C10 at a concrete input: the chance node of `tinyGame`
returns its child's stores unchanged. -/
theorem C10_terminal_chance_frame_witness :
    ∃ move rest t π'', (["x"] : List String) = move :: rest
      ∧ walktree tinyGame 1 (tinyGame.do_move 0 move) 1 1 rest emptyStrategies
          = some (t, π'')
      ∧ emptyStrategies = π'' :=
  (C10_terminal_chance_frame tinyGame 1 0 1 1 ["x"] emptyStrategies emptyStrategies
    (CFRTree.mk 1 (-1) [("x", CFRTree.mk 1 (-1) [])])
    (by with_unfolding_all rfl)).2 rfl

/-! ## C8: one concrete walk of the coin-toss game -/

/-- Counterexample for C8: after one walk from the fresh root with the chance
outcome fixed to "head", player 1's information set "tail" has visit count 0,
not 1 — so "the visit_count for both players' information sets equals 1" is
false for the unvisited information set of player 1. -/
theorem C8_counterexample_unvisited_info_set :
    ((walktree CoinTossGame 10 CoinToss.start 1 1 ["head"] initialStrategies).map
      (fun r => dget r.2.s1.info_turn "tail" 0)) = some 0
    ∧ ((walktree CoinTossGame 10 CoinToss.start 1 1 ["head"] initialStrategies).map
      (fun r => dget r.2.s1.info_turn "tail" 0)) ≠ some 1 := by
  with_unfolding_all decide

/-- C8 amended: after exactly one walk from the fresh root with the chance
outcome fixed to "head" (resp. "tail"), `pi_sum` for player 2's information
set "nothing" is the pre-update uniform 1/2 at each action, the visit count
is 1 for player 2's information set and for player 1's information set equal
to the fixed chance outcome, and 0 for player 1's other information set. -/
theorem C8_one_walk_statistics :
    (((walktree CoinTossGame 10 CoinToss.start 1 1 ["head"] initialStrategies).map
      (fun r => (dget (dget r.2.s2.pi_sum "nothing" []) "head" 0,
                 dget (dget r.2.s2.pi_sum "nothing" []) "tail" 0,
                 dget r.2.s2.info_turn "nothing" 0,
                 dget r.2.s1.info_turn "head" 0,
                 dget r.2.s1.info_turn "tail" 0)))
      = some (1/2, 1/2, 1, 1, 0))
    ∧ (((walktree CoinTossGame 10 CoinToss.start 1 1 ["tail"] initialStrategies).map
      (fun r => (dget (dget r.2.s2.pi_sum "nothing" []) "head" 0,
                 dget (dget r.2.s2.pi_sum "nothing" []) "tail" 0,
                 dget r.2.s2.info_turn "nothing" 0,
                 dget r.2.s1.info_turn "tail" 0,
                 dget r.2.s1.info_turn "head" 0)))
      = some (1/2, 1/2, 1, 1, 0)) := by
  with_unfolding_all decide

/-! ## C3: the player case of the tree walk -/

theorem walkMoves_nil_eq {σ : Type}
    (rec : σ → ℚ → ℚ → List String → Strategies → Option (CFRTree × Strategies))
    (g : Game σ) (st : σ) (p : Player) (info : String) (r1 r2 : ℚ)
    (seq : List String) (u : ℚ × ℚ) (subs : List (String × CFRTree)) (π : Strategies) :
    walkMoves rec g st p info r1 r2 seq [] u subs π = some (u, subs, π) := rfl

theorem walkMoves_cons_eq {σ : Type}
    (rec : σ → ℚ → ℚ → List String → Strategies → Option (CFRTree × Strategies))
    (g : Game σ) (st : σ) (p : Player) (info : String) (r1 r2 : ℚ)
    (seq : List String) (move : String) (rest : List String)
    (u : ℚ × ℚ) (subs : List (String × CFRTree)) (π : Strategies) :
    walkMoves rec g st p info r1 r2 seq (move :: rest) u subs π =
      (let next_state := g.do_move st move
       let pi_action := (π.store p).get_pi info move
       let rr := childReaches p r1 r2 pi_action
       match rec next_state rr.1 rr.2 seq π with
       | none => none
       | some (t, π') =>
         walkMoves rec g st p info r1 r2 seq rest
           (u.1 + pi_action * t.u1, u.2 + pi_action * t.u2)
           (subs ++ [(move, t)]) π') := rfl

theorem walkMoves_inv {σ : Type}
    (rec : σ → ℚ → ℚ → List String → Strategies → Option (CFRTree × Strategies))
    (g : Game σ) (st : σ) (p : Player) (info : String) (r1 r2 : ℚ)
    (seq : List String) :
    ∀ (moves : List String) (u0 : ℚ × ℚ) (subs0 : List (String × CFRTree))
      (π : Strategies) (u' : ℚ × ℚ) (subs' : List (String × CFRTree)) (π' : Strategies),
      walkMoves rec g st p info r1 r2 seq moves u0 subs0 π = some (u', subs', π') →
      ∃ recs : List (String × ℚ × CFRTree),
        Expanded rec g st p info r1 r2 seq moves π recs π'
        ∧ u'.1 = u0.1 + (recs.map (fun r => r.2.1 * r.2.2.u1)).sum
        ∧ u'.2 = u0.2 + (recs.map (fun r => r.2.1 * r.2.2.u2)).sum
        ∧ subs' = subs0 ++ recs.map (fun r => (r.1, r.2.2)) := by
  intro moves
  induction moves with
  | nil =>
    intro u0 subs0 π u' subs' π' h
    rw [walkMoves_nil_eq, Option.some.injEq] at h
    have h1 : u0 = u' := congrArg (fun x => x.1) h
    have h2 : subs0 = subs' := congrArg (fun x => x.2.1) h
    have h3 : π = π' := congrArg (fun x => x.2.2) h
    subst h1; subst h2; subst h3
    exact ⟨[], Expanded.nil π, by simp, by simp, by simp⟩
  | cons move rest ih =>
    intro u0 subs0 π u' subs' π' h
    rw [walkMoves_cons_eq] at h
    simp only [] at h
    split at h
    · exact absurd h (by simp)
    · rename_i t πmid heq
      obtain ⟨recs, hexp, h1, h2, h3⟩ := ih _ _ _ _ _ _ h
      refine ⟨(move, (π.store p).get_pi info move, t) :: recs, ?_, ?_, ?_, ?_⟩
      · exact Expanded.cons move rest π πmid π' ((π.store p).get_pi info move) t recs
          rfl heq hexp
      · rw [h1]; simp only [List.map_cons, List.sum_cons]; ring
      · rw [h2]; simp only [List.map_cons, List.sum_cons]; ring
      · rw [h3]; simp

/-- C3: at a node where a competing player `p` acts, a completed walk expands
every legal move in order, recursing into each move's child with the *other*
player's reach probability unchanged and `p`'s reach multiplied by the
strategy probability `get_pi(info, move)` read at that point (the `Expanded`
relation); the node's utility for each of the two players is the sum over
moves of that probability times the child's utility for that player; the
node's children are exactly the expanded ones; and the final stores are the
post-expansion stores with `p`'s store updated by `update_regret` at `info`
with baseline utility `node.utility[p]` and opponent reach equal to the
*other* player's incoming reach parameter (`oppReach`). -/
theorem C3_player_node_walk {σ : Type} (g : Game σ) (fuel : ℕ) (st : σ)
    (p : Player) (r1 r2 : ℚ) (seq : List String) (π π' : Strategies) (tr : CFRTree)
    (hp : g.get_player_next_moved st = some (.player p))
    (hw : walktree g (fuel+1) st r1 r2 seq π = some (tr, π')) :
    ∃ recs πn,
      Expanded (fun st' a b sq πc => walktree g fuel st' a b sq πc) g st p
        (g.get_information st p) r1 r2 seq (g.get_moves st)
        (π.setStore p ((π.store p).update_pi (g.get_information st p))) recs πn
      ∧ tr.u1 = (recs.map (fun r => r.2.1 * r.2.2.u1)).sum
      ∧ tr.u2 = (recs.map (fun r => r.2.1 * r.2.2.u2)).sum
      ∧ tr.subs = recs.map (fun r => (r.1, r.2.2))
      ∧ π' = πn.setStore p ((πn.store p).update_regret (g.get_information st p)
          (tr.uFor p) (oppReach p r1 r2)
          (tr.subs.map (fun mt => (mt.1, mt.2.uFor p)))) := by
  rw [walktree_succ_eq, hp] at hw
  simp only [] at hw
  split at hw
  · exact absurd hw (by simp)
  · rename_i u subs π1 heq
    rw [Option.some.injEq, Prod.mk.injEq] at hw
    obtain ⟨recs, hexp, h1, h2, h3⟩ := walkMoves_inv _ g st p _ r1 r2 seq _ _ _ _ _ _ _ heq
    refine ⟨recs, π1, ?_, ?_, ?_, ?_, ?_⟩
    · exact hexp
    · rw [← hw.1]
      show u.1 = _
      rw [h1]; simp
    · rw [← hw.1]
      show u.2 = _
      rw [h2]; simp
    · rw [← hw.1]
      show subs = _
      rw [h3]; simp
    · rw [← hw.1, ← hw.2]; rfl

/-- Witness for C3 at a concrete input: the coin-toss walk of player 2's
decision node (after "head" and "play") with incoming reaches (1, 1). -/
theorem C3_player_node_walk_witness :
    ∃ recs πn,
      Expanded (fun st' a b sq πc => walktree CoinTossGame 1 st' a b sq πc)
        CoinTossGame ctP2State Player.two
        (CoinTossGame.get_information ctP2State Player.two) 1 1 []
        (CoinTossGame.get_moves ctP2State)
        (initialStrategies.setStore Player.two
          ((initialStrategies.store Player.two).update_pi
            (CoinTossGame.get_information ctP2State Player.two))) recs πn
      ∧ (CFRTree.mk 0 0 [("head", CFRTree.mk (-1) 1 []), ("tail", CFRTree.mk 1 (-1) [])]).u1
          = (recs.map (fun r => r.2.1 * r.2.2.u1)).sum
      ∧ (CFRTree.mk 0 0 [("head", CFRTree.mk (-1) 1 []), ("tail", CFRTree.mk 1 (-1) [])]).u2
          = (recs.map (fun r => r.2.1 * r.2.2.u2)).sum
      ∧ (CFRTree.mk 0 0 [("head", CFRTree.mk (-1) 1 []), ("tail", CFRTree.mk 1 (-1) [])]).subs
          = recs.map (fun r => (r.1, r.2.2))
      ∧ Strategies.mk initialStrategies.s1
          { info_list := ["nothing"], action_list := ["head", "tail"]
            pi := [("nothing", [("head", 1/2), ("tail", 1/2)])]
            regret := [("nothing", [("head", 1), ("tail", -1)])]
            info_turn := [("nothing", 1)]
            pi_sum := [("nothing", [("head", 1/2), ("tail", 1/2)])] }
        = πn.setStore Player.two ((πn.store Player.two).update_regret
            (CoinTossGame.get_information ctP2State Player.two)
            ((CFRTree.mk 0 0 [("head", CFRTree.mk (-1) 1 []),
              ("tail", CFRTree.mk 1 (-1) [])]).uFor Player.two)
            (oppReach Player.two 1 1)
            (((CFRTree.mk 0 0 [("head", CFRTree.mk (-1) 1 []),
              ("tail", CFRTree.mk 1 (-1) [])]).subs).map
              (fun mt => (mt.1, mt.2.uFor Player.two)))) :=
  C3_player_node_walk CoinTossGame 1 ctP2State Player.two 1 1 [] initialStrategies
    (Strategies.mk initialStrategies.s1
      { info_list := ["nothing"], action_list := ["head", "tail"]
        pi := [("nothing", [("head", 1/2), ("tail", 1/2)])]
        regret := [("nothing", [("head", 1), ("tail", -1)])]
        info_turn := [("nothing", 1)]
        pi_sum := [("nothing", [("head", 1/2), ("tail", 1/2)])] })
    (CFRTree.mk 0 0 [("head", CFRTree.mk (-1) 1 []), ("tail", CFRTree.mk 1 (-1) [])])
    (by with_unfolding_all rfl) (by with_unfolding_all rfl)

/-! ## C5: zero-sum propagation through a completed walk -/

theorem zsum_mk_iff (a b : ℚ) (s : List (String × CFRTree)) :
    zsum (CFRTree.mk a b s) = true ↔ (a + b = 0 ∧ zsumList s = true) := by
  show (decide (a + b = 0) && zsumList s) = true ↔ _
  rw [Bool.and_eq_true, decide_eq_true_iff]

theorem zsumList_of_map (recs : List (String × ℚ × CFRTree))
    (h : ∀ r ∈ recs, zsum r.2.2 = true) :
    zsumList (recs.map (fun r => (r.1, r.2.2))) = true := by
  induction recs with
  | nil => rfl
  | cons r rest ih =>
    show (zsum r.2.2 && _) = true
    rw [Bool.and_eq_true]
    exact ⟨h r (List.mem_cons_self _ _),
      ih (fun q hq => h q (List.mem_cons_of_mem _ hq))⟩

theorem expanded_all_zsum {σ : Type}
    (rec : σ → ℚ → ℚ → List String → Strategies → Option (CFRTree × Strategies))
    (g : Game σ) (st : σ) (p : Player) (info : String) (r1 r2 : ℚ)
    (seq : List String)
    (hrec : ∀ (st' : σ) (a b : ℚ) (π₀ : Strategies) (t : CFRTree) (π₁ : Strategies),
      rec st' a b seq π₀ = some (t, π₁) → zsum t = true) :
    ∀ (moves : List String) (π : Strategies) (recs : List (String × ℚ × CFRTree))
      (πfin : Strategies),
      Expanded rec g st p info r1 r2 seq moves π recs πfin →
      ∀ r ∈ recs, zsum r.2.2 = true := by
  intro moves π recs πfin hexp
  induction hexp with
  | nil => intro r hr; exact absurd hr (List.not_mem_nil _)
  | cons move rest π πmid πfin q t recs hq hstep htail ih =>
    intro r hr
    rcases List.mem_cons.mp hr with hr | hr
    · rw [hr]
      exact hrec _ _ _ _ _ _ hstep
    · exact ih r hr

theorem weighted_sums_zero (recs : List (String × ℚ × CFRTree))
    (h : ∀ r ∈ recs, r.2.2.u1 + r.2.2.u2 = 0) :
    (recs.map (fun r => r.2.1 * r.2.2.u1)).sum
      + (recs.map (fun r => r.2.1 * r.2.2.u2)).sum = 0 := by
  induction recs with
  | nil => simp
  | cons r rest ih =>
    simp only [List.map_cons, List.sum_cons]
    have h0 := h r (List.mem_cons_self _ _)
    have ih' := ih (fun q hq => h q (List.mem_cons_of_mem _ hq))
    have hmul : r.2.1 * r.2.2.u1 + r.2.1 * r.2.2.u2 = 0 := by
      have hfactor : r.2.1 * r.2.2.u1 + r.2.1 * r.2.2.u2
          = r.2.1 * (r.2.2.u1 + r.2.2.u2) := by ring
      rw [hfactor, h0, mul_zero]
    linarith [hmul, ih']

/-- C5: if the game's terminal results are zero-sum wherever they are
defined (`get_result(1) + get_result(2) = 0`), then every node of the tree a
completed walk produces satisfies `utility[1] + utility[2] = 0` — from the
terminal leaves, through the chance-copy step, through the
probability-weighted aggregation at player nodes. -/
theorem C5_zero_sum_tree {σ : Type} (g : Game σ)
    (hzs : ∀ (s : σ) (u1 u2 : ℚ), g.get_player_next_moved s = none →
      g.get_result s 1 = .ok u1 → g.get_result s 2 = .ok u2 → u1 + u2 = 0) :
    ∀ (fuel : ℕ) (st : σ) (r1 r2 : ℚ) (seq : List String) (π π' : Strategies)
      (tr : CFRTree),
      walktree g fuel st r1 r2 seq π = some (tr, π') → zsum tr = true := by
  intro fuel
  induction fuel with
  | zero =>
    intro st r1 r2 seq π π' tr hw
    exact absurd hw (by simp [walktree])
  | succ fuel ih =>
    intro st r1 r2 seq π π' tr hw
    rw [walktree_succ_eq] at hw
    split at hw
    · rename_i hterm
      split at hw
      · rename_i v1 v2 heq1 heq2
        rw [Option.some.injEq, Prod.mk.injEq] at hw
        rw [← hw.1, zsum_mk_iff]
        exact ⟨hzs st v1 v2 hterm heq1 heq2, rfl⟩
      · exact absurd hw (by simp)
    · split at hw
      · exact absurd hw (by simp)
      · rename_i move rest
        simp only [] at hw
        split at hw
        · exact absurd hw (by simp)
        · rename_i t π'' heq
          rw [Option.some.injEq, Prod.mk.injEq] at hw
          have ht := ih _ _ _ _ _ _ _ heq
          rw [← hw.1, zsum_mk_iff]
          cases t with
          | mk a b s =>
            have hab := (zsum_mk_iff a b s).mp ht
            refine ⟨hab.1, ?_⟩
            show (zsum (CFRTree.mk a b s) && true) = true
            rw [Bool.and_eq_true]
            exact ⟨ht, rfl⟩
    · rename_i p hp
      simp only [] at hw
      split at hw
      · exact absurd hw (by simp)
      · rename_i u subs π1 heq
        rw [Option.some.injEq, Prod.mk.injEq] at hw
        obtain ⟨recs, hexp, h1, h2, h3⟩ :=
          walkMoves_inv _ g st p _ r1 r2 seq _ _ _ _ _ _ _ heq
        have hall := expanded_all_zsum _ g st p _ r1 r2 seq
          (fun st' a b π₀ t π₁ hh => ih st' a b seq π₀ π₁ t hh)
          _ _ _ _ hexp
        have hchildren : ∀ r ∈ recs, r.2.2.u1 + r.2.2.u2 = 0 := by
          intro r hr
          have hz := hall r hr
          cases hzr : r.2.2 with
          | mk a b s =>
            rw [hzr] at hz
            exact (zsum_mk_iff a b s).mp hz |>.1
        rw [← hw.1, zsum_mk_iff]
        constructor
        · rw [h1, h2]
          simp only []
          have := weighted_sums_zero recs hchildren
          linarith [this]
        · rw [h3]
          simp only [List.nil_append]
          exact zsumList_of_map recs hall

/-- The coin-toss game's terminal results are zero-sum wherever both are
defined. -/
theorem coinToss_zero_sum :
    ∀ (c : CoinToss) (u1 u2 : ℚ), c.get_player_next_moved = none →
      c.get_result 1 = .ok u1 → c.get_result 2 = .ok u2 → u1 + u2 = 0 := by
  intro c u1 u2 _ h1 h2
  unfold CoinToss.get_result at h1 h2
  split_ifs at h1 h2
  all_goals first
    | exact Except.noConfusion h1
    | omega
    | (injection h1 with h1
       injection h2 with h2
       subst h1
       subst h2
       norm_num)

/-- Witness for C5 at a concrete input: the full coin-toss tree of one walk
with chance outcome "head" is zero-sum at every node. -/
theorem C5_zero_sum_tree_witness :
    zsum (CFRTree.mk (1/4) (-1/4)
      [("head", CFRTree.mk (1/4) (-1/4)
        [("sell", CFRTree.mk (1/2) (-1/2) []),
         ("play", CFRTree.mk 0 0
           [("head", CFRTree.mk (-1) 1 []),
            ("tail", CFRTree.mk 1 (-1) [])])])]) = true :=
  C5_zero_sum_tree CoinTossGame coinToss_zero_sum 5 CoinToss.start 1 1 ["head"]
    initialStrategies
    (Strategies.mk
      { info_list := ["head", "tail"], action_list := ["sell", "play"]
        pi := [("head", [("sell", 1/2), ("play", 1/2)]),
               ("tail", [("sell", 1/2), ("play", 1/2)])]
        regret := [("head", [("sell", 1/4), ("play", -1/4)]),
                   ("tail", [("sell", 0), ("play", 0)])]
        info_turn := [("head", 1), ("tail", 0)]
        pi_sum := [("head", [("sell", 1/2), ("play", 1/2)]),
                   ("tail", [("sell", 0), ("play", 0)])] }
      { info_list := ["nothing"], action_list := ["head", "tail"]
        pi := [("nothing", [("head", 1/2), ("tail", 1/2)])]
        regret := [("nothing", [("head", 1/2), ("tail", -1/2)])]
        info_turn := [("nothing", 1)]
        pi_sum := [("nothing", [("head", 1/2), ("tail", 1/2)])] })
    (CFRTree.mk (1/4) (-1/4)
      [("head", CFRTree.mk (1/4) (-1/4)
        [("sell", CFRTree.mk (1/2) (-1/2) []),
         ("play", CFRTree.mk 0 0
           [("head", CFRTree.mk (-1) 1 []),
            ("tail", CFRTree.mk 1 (-1) [])])])])
    (by with_unfolding_all rfl)
